import Mathlib

/-!
Black level control algorithm (`src/ipa/raspberrypi/controller/rpi/black_level.cpp`).

A shallow embedding of `BlackLevel::name`, `BlackLevel::read`, `BlackLevel::prepare`
and the static registration of the algorithm, together with the two collaborators
the file calls into: the property tree handed to `read` and the metadata exchange
handed to `prepare`.

16-bit unsigned values are natural numbers; every value that `read` stores is shown
to be below `2 ^ 16`.
-/

namespace RPiController

/-! ## Property tree (`boost::property_tree::ptree`) -/

/-- A node of the external `boost::property_tree::ptree`: its own data string and an
ordered list of keyed children. -/
inductive Ptree where
  | mk (data : String) (children : List (String × Ptree))

namespace Ptree

/-- The data string held by the node itself. -/
def data : Ptree → String
  | mk d _ => d

/-- The keyed children of the node, in insertion order. -/
def children : Ptree → List (String × Ptree)
  | mk _ cs => cs

/-- The empty tree `{}`. -/
def empty : Ptree := mk "" []

/-- A node without children holding the given data. -/
def leaf (d : String) : Ptree := mk d []

/-- First entry of a child list stored under `key` (a tree may hold several children
under one key; lookup settles on one of them, here the first). -/
def findChild (key : String) : List (String × Ptree) → Option Ptree
  | [] => none
  | (k, c) :: rest => if k = key then some c else findChild key rest

/-- Child lookup `get_child_optional(key)` for a key without path separator. -/
def getChild (t : Ptree) (key : String) : Option Ptree :=
  findChild key t.children

/-- White space of the classic locale, skipped by `std::ws` and before a number. -/
def isSpace (c : Char) : Bool :=
  c = ' ' || c = '\t' || c = '\n' || c = Char.ofNat 11 || c = Char.ofNat 12 || c = '\r'

/-- Value of a run of decimal digits, most significant first. -/
def digitsValue (ds : List Char) : Nat :=
  ds.foldl (fun acc c => 10 * acc + (c.toNat - '0'.toNat)) 0

/-- Formatted extraction `stream >> value` for an `unsigned short` from the characters
`cs`, in base ten: leading white space is skipped, one sign is accepted, then the
longest run of digits is consumed. Extraction fails when there is no digit or when the
magnitude exceeds 65535; a leading minus negates the magnitude modulo `2 ^ 16`, as the
C library conversion the stream uses does. Returns the value and the unread rest. -/
def extractUInt16 (cs : List Char) : Option (Nat × List Char) :=
  let cs1 := cs.dropWhile isSpace
  let negative := cs1.head? = some '-'
  let cs2 := if cs1.head? = some '-' ∨ cs1.head? = some '+' then cs1.tail else cs1
  let ds := cs2.takeWhile Char.isDigit
  let rest := cs2.dropWhile Char.isDigit
  if ds = [] then none
  else if 65535 < digitsValue ds then none
  else some (if negative then (65536 - digitsValue ds) % 65536 else digitsValue ds, rest)

/-- The stream translator `get_value` for `uint16_t`: extract a number, skip trailing
white space, and accept only when the whole data string has been consumed. -/
def getValueUInt16 (s : String) : Option Nat :=
  match extractUInt16 s.data with
  | none => none
  | some (v, rest) => if rest.dropWhile isSpace = [] then some v else none

/-- The stream translator `put_value` for `uint16_t`: the decimal digits of `v`. -/
def putValueUInt16 (v : Nat) : String :=
  String.mk (Nat.toDigits 10 v)

/-- The typed read `get_optional<uint16_t>(key)`: absent when there is no such child
or when the child's data does not translate. -/
def getOptional (t : Ptree) (key : String) : Option Nat :=
  match t.getChild key with
  | none => none
  | some c => getValueUInt16 c.data

/-- The defaulted read `get<uint16_t>(key, defaultValue)`, that is
`get_optional<uint16_t>(key).get_value_or(defaultValue)`. -/
def get (t : Ptree) (key : String) (defaultValue : Nat) : Nat :=
  match t.getOptional key with
  | none => defaultValue
  | some v => v

/-- Replace the data of the first child stored under `key`, or append a new leaf. -/
def putChild (key : String) (d : String) : List (String × Ptree) → List (String × Ptree)
  | [] => [(key, leaf d)]
  | (k, c) :: rest =>
    if k = key then (k, mk d c.children) :: rest else (k, c) :: putChild key d rest

/-- The typed write `put<uint16_t>(key, v)` for a key without path separator. -/
def put (t : Ptree) (key : String) (v : Nat) : Ptree :=
  mk t.data (putChild key (putValueUInt16 v) t.children)

/-- Drop every entry of a child list stored under `key`. -/
def eraseChild (key : String) : List (String × Ptree) → List (String × Ptree)
  | [] => []
  | (k, c) :: rest =>
    if k = key then eraseChild key rest else (k, c) :: eraseChild key rest

/-- Remove every child stored under `key`. -/
def erase (t : Ptree) (key : String) : Ptree :=
  mk t.data (eraseChild key t.children)

end Ptree

/-! ## Metadata exchange -/

/-- Modelled from the spec: the record type `BlackLevelStatus`, declared in the absent
header `black_level_status.h`; a fixed-shape status value of three numeric offsets,
with the field names `prepare` assigns. -/
structure BlackLevelStatus where
  blackLevelR : Nat
  blackLevelG : Nat
  blackLevelB : Nat
  deriving DecidableEq, Repr

/-- Modelled from the spec: a record held by the exchange, whose declaration is
absent. The exchange is type-erased: a record is the black level status, or a record of
another shape identified by a tag with its raw fields. -/
inductive MetadataValue where
  | blackLevel (status : BlackLevelStatus)
  | other (shape : String) (fields : List Nat)
  deriving DecidableEq, Repr

/-- Modelled from the spec: the class `Metadata` (the per-frame metadata exchange),
whose source is absent. It is an associative store keyed by string identifiers;
`set(key, record)` stores or overwrites the record under `key`, `get(key)` returns the
record if present, and lookups are by exact key only. -/
structure Metadata where
  entries : List (String × MetadataValue)
  deriving DecidableEq, Repr

namespace Metadata

/-- Drop every record stored under `tag`. -/
def eraseTag (tag : String) : List (String × MetadataValue) → List (String × MetadataValue)
  | [] => []
  | (k, v) :: rest =>
    if k = tag then eraseTag tag rest else (k, v) :: eraseTag tag rest

/-- First record of an entry list stored under `tag`. -/
def findTag (tag : String) : List (String × MetadataValue) → Option MetadataValue
  | [] => none
  | (k, v) :: rest => if k = tag then some v else findTag tag rest

/-- Number of entries of an entry list stored under `tag`. -/
def countTag (tag : String) : List (String × MetadataValue) → Nat
  | [] => 0
  | (k, _) :: rest => if k = tag then countTag tag rest + 1 else countTag tag rest

/-- Modelled from the spec: `set(key, record)` of the absent class `Metadata` stores or
overwrites a record under `key`; every earlier record under the key is dropped. -/
def set (m : Metadata) (tag : String) (value : MetadataValue) : Metadata :=
  ⟨(tag, value) :: eraseTag tag m.entries⟩

/-- Modelled from the spec: `get(key)` of the absent class `Metadata` returns the
record stored under exactly `key` if present. -/
def get (m : Metadata) (tag : String) : Option MetadataValue :=
  findTag tag m.entries

/-- Number of records held under `tag`. -/
def count (m : Metadata) (tag : String) : Nat :=
  countTag tag m.entries

end Metadata

/-! ## The algorithm -/

/-- The name constant `NAME` of the algorithm. -/
def NAME : String := "rpi.black_level"

/-- Modelled from the spec: the `Controller` an algorithm instance is attached to,
whose source is absent; only its identity matters here. -/
structure Controller where
  id : Nat
  deriving DecidableEq, Repr

/-- State of a `BlackLevel` instance: the controller handed to the `Algorithm` base
and the three stored offsets `read` assigns (the members are declared in the absent
header `black_level.h`). -/
structure BlackLevel where
  controller : Controller
  blackLevelR_ : Nat
  blackLevelG_ : Nat
  blackLevelB_ : Nat
  deriving DecidableEq, Repr

namespace BlackLevel

/-- The method `BlackLevel::name`. -/
def name (_self : BlackLevel) : String := NAME

/-- The method `BlackLevel::read`: returns the status code and the updated instance. -/
def read (self : BlackLevel) (params : Ptree) : Int × BlackLevel :=
  let blackLevel := params.get "black_level" 4096
  (0, { self with
        blackLevelR_ := params.get "black_level_r" blackLevel
        blackLevelG_ := params.get "black_level_g" blackLevel
        blackLevelB_ := params.get "black_level_b" blackLevel })

/-- The method `BlackLevel::prepare`: returns the instance and the updated exchange. -/
def prepare (self : BlackLevel) (imageMetadata : Metadata) : BlackLevel × Metadata :=
  let status : BlackLevelStatus :=
    { blackLevelR := self.blackLevelR_
      blackLevelG := self.blackLevelG_
      blackLevelB := self.blackLevelB_ }
  (self, imageMetadata.set "black_level.status" (MetadataValue.blackLevel status))

end BlackLevel

/-- The factory `create`. The constructor does not initialise the three offsets, so
their indeterminate initial contents are an argument. -/
def create (controller : Controller) (indeterminate : Nat × Nat × Nat) : BlackLevel :=
  { controller := controller
    blackLevelR_ := indeterminate.1
    blackLevelG_ := indeterminate.2.1
    blackLevelB_ := indeterminate.2.2 }

/-- Modelled from the spec: the absent class `RegisterAlgorithm`, whose constructor
`RegisterAlgorithm(name, createFunc)` enters a mapping from the name to the factory in
the registry; the value records the registry key and the factory entered under it. -/
structure RegisterAlgorithm where
  name : String
  createFunc : Controller → Nat × Nat × Nat → BlackLevel

/-- The static object `reg` that registers the algorithm with the system. -/
def reg : RegisterAlgorithm := ⟨NAME, create⟩

/-! ## Auxiliary notions used to state the properties -/

/-- The record found under `"black_level.status"` after `read` and then `prepare`. -/
def publishedAfterRead (self : BlackLevel) (params : Ptree) (m : Metadata) :
    Option MetadataValue :=
  ((self.read params).2.prepare m).2.get "black_level.status"

/-- The status record carrying the three stored offsets of an instance. -/
def statusOf (self : BlackLevel) : BlackLevelStatus :=
  ⟨self.blackLevelR_, self.blackLevelG_, self.blackLevelB_⟩

/-- The four keys `read` looks at. -/
def blackLevelKeys : List String :=
  ["black_level", "black_level_r", "black_level_g", "black_level_b"]

/-- The three per-channel keys. -/
def channelKeys : List String :=
  ["black_level_r", "black_level_g", "black_level_b"]

/-- A key is present in the subtree handed to `read`. -/
def present (params : Ptree) (key : String) : Bool :=
  (params.getChild key).isSome

/-- The key is absent, or present with data that translates to a 16-bit unsigned
integer. -/
def validAt (params : Ptree) (key : String) : Bool :=
  match params.getChild key with
  | none => true
  | some c => (Ptree.getValueUInt16 c.data).isSome

/-- Every present value among the four keys is a valid 16-bit unsigned integer. -/
def validConfig (params : Ptree) : Bool :=
  blackLevelKeys.all (fun key => validAt params key)

/-- None of the four keys is present. -/
def allAbsent (params : Ptree) : Bool :=
  blackLevelKeys.all (fun key => !present params key)

/-- A key is present with data that does not translate to a 16-bit unsigned integer
(out of range, or not a number at all). -/
def unconvertibleAt (params : Ptree) (key : String) : Bool :=
  match params.getChild key with
  | none => false
  | some c => (Ptree.getValueUInt16 c.data).isNone

/-- The integer a configuration text states when it is a plain integer: an optional
sign followed by decimal digits and nothing else. -/
def integerLiteral (s : String) : Option Int :=
  let ds := if s.data.head? = some '-' ∨ s.data.head? = some '+' then s.data.tail
    else s.data
  if ds = [] then none
  else if ds.all Char.isDigit = false then none
  else some (if s.data.head? = some '-' then -(Ptree.digitsValue ds : Int)
    else (Ptree.digitsValue ds : Int))

/-- The text states an integer within the declared numeric range 0..65535. -/
def inDeclaredRange (s : String) : Bool :=
  match integerLiteral s with
  | some z => decide (0 ≤ z ∧ z ≤ 65535)
  | none => false

/-- A type mismatch at `key`, in the specification's words: the key is present with a
value outside the declared numeric range 0..65535, or not a number at all; that is,
with anything but an integer within the range. -/
def mismatchAt (params : Ptree) (key : String) : Bool :=
  match params.getChild key with
  | none => false
  | some c => !inDeclaredRange c.data

/-- The value of a key as the configuration states it: the integer its data denotes. -/
def valueOf (c : Ptree) : Option Nat :=
  Ptree.getValueUInt16 c.data

/-- The channel value as the specification words it: the value of the channel's own
key when that key is present, otherwise the value of `black_level` when that is
present, otherwise 4096. -/
def specChannel (params : Ptree) (key : String) : Option Nat :=
  match params.getChild key with
  | some c => valueOf c
  | none =>
    match params.getChild "black_level" with
    | some c => valueOf c
    | none => some 4096

/-- Two subtrees differ at most in the presence or value of `key`. -/
def agreeOff (key : String) (p q : Ptree) : Prop :=
  ∀ k, k ≠ key → p.getChild k = q.getChild k

/-- Drive `prepare` once per frame over a sequence of exchanges, threading the
instance through the calls; returns the final instance and the exchanges produced. -/
def prepareFrames (self : BlackLevel) : List Metadata → BlackLevel × List Metadata
  | [] => (self, [])
  | m :: ms =>
    let r := self.prepare m
    let rs := prepareFrames r.1 ms
    (rs.1, r.2 :: rs.2)

/-! ## Concrete inputs -/

/-- An instance holding arbitrary earlier contents. -/
def sampleInstance : BlackLevel := ⟨⟨1⟩, 7, 8, 9⟩

/-- An exchange already holding a record of another algorithm and an older black
level status. -/
def sampleExchange : Metadata :=
  ⟨[("awb.status", MetadataValue.other "AwbStatus" [1, 2, 3]),
    ("black_level.status", MetadataValue.blackLevel ⟨1, 2, 3⟩)]⟩

/-- The configuration `{black_level: 2048}`. -/
def configBase : Ptree :=
  Ptree.mk "" [("black_level", Ptree.leaf "2048")]

/-- The configuration `{black_level_r: 100, black_level: 2048}`. -/
def configRedBase : Ptree :=
  Ptree.mk "" [("black_level_r", Ptree.leaf "100"), ("black_level", Ptree.leaf "2048")]

/-- The configuration `{black_level: 70000}`, whose value exceeds 65535. -/
def configOutOfRange : Ptree :=
  Ptree.mk "" [("black_level", Ptree.leaf "70000")]

/-- The configuration `{black_level: -1}`, whose value lies below 0. -/
def configNegative : Ptree :=
  Ptree.mk "" [("black_level", Ptree.leaf "-1")]

/-- The configuration `{black_level_r: abc, black_level: 100}`: the red key is
present but is not a number. -/
def configBadRedBase100 : Ptree :=
  Ptree.mk "" [("black_level_r", Ptree.leaf "abc"), ("black_level", Ptree.leaf "100")]

/-- The configuration `{black_level_r: abc, black_level: 200}`. -/
def configBadRedBase200 : Ptree :=
  Ptree.mk "" [("black_level_r", Ptree.leaf "abc"), ("black_level", Ptree.leaf "200")]

/-! ## Lemmas on the property tree -/

namespace Ptree

theorem findChild_putChild_same (key d : String) (cs : List (String × Ptree)) :
    ∃ c, findChild key (putChild key d cs) = some c ∧ c.data = d := by
  induction cs with
  | nil => exact ⟨leaf d, by simp [putChild, findChild], rfl⟩
  | cons e rest ih =>
    obtain ⟨k, c⟩ := e
    by_cases h : k = key
    · exact ⟨mk d c.children, by simp [putChild, findChild, h], rfl⟩
    · obtain ⟨c', hc', hd⟩ := ih
      exact ⟨c', by simp [putChild, findChild, h, hc'], hd⟩

theorem findChild_putChild_ne (key d k : String) (hk : k ≠ key)
    (cs : List (String × Ptree)) :
    findChild k (putChild key d cs) = findChild k cs := by
  induction cs with
  | nil => simp [putChild, findChild, Ne.symm hk]
  | cons e rest ih =>
    obtain ⟨k0, c⟩ := e
    by_cases h : k0 = key
    · subst h
      simp [putChild, findChild, Ne.symm hk]
    · by_cases h1 : k0 = k
      · subst h1
        simp [putChild, findChild, h]
      · simp [putChild, findChild, h, h1, ih]

theorem findChild_eraseChild_same (key : String) (cs : List (String × Ptree)) :
    findChild key (eraseChild key cs) = none := by
  induction cs with
  | nil => simp [eraseChild, findChild]
  | cons e rest ih =>
    obtain ⟨k, c⟩ := e
    by_cases h : k = key
    · simp [eraseChild, h, ih]
    · simp [eraseChild, h, findChild, ih]

theorem findChild_eraseChild_ne (key k : String) (hk : k ≠ key)
    (cs : List (String × Ptree)) :
    findChild k (eraseChild key cs) = findChild k cs := by
  induction cs with
  | nil => simp [eraseChild, findChild]
  | cons e rest ih =>
    obtain ⟨k0, c⟩ := e
    by_cases h : k0 = key
    · subst h
      simp [eraseChild, findChild, Ne.symm hk, ih]
    · by_cases h1 : k0 = k
      · subst h1
        simp [eraseChild, findChild, h]
      · simp [eraseChild, findChild, h, h1, ih]

theorem getChild_put_same (t : Ptree) (key : String) (v : Nat) :
    ∃ c, (t.put key v).getChild key = some c ∧ c.data = putValueUInt16 v := by
  simpa [getChild, put, children] using findChild_putChild_same key (putValueUInt16 v) t.children

theorem getChild_put_ne (t : Ptree) (key k : String) (v : Nat) (hk : k ≠ key) :
    (t.put key v).getChild k = t.getChild k := by
  simpa [getChild, put, children] using findChild_putChild_ne key (putValueUInt16 v) k hk t.children

theorem getChild_erase_same (t : Ptree) (key : String) :
    (t.erase key).getChild key = none := by
  simpa [getChild, erase, children] using findChild_eraseChild_same key t.children

theorem getChild_erase_ne (t : Ptree) (key k : String) (hk : k ≠ key) :
    (t.erase key).getChild k = t.getChild k := by
  simpa [getChild, erase, children] using findChild_eraseChild_ne key k hk t.children

/-! ### The stream translator -/

theorem extractUInt16_lt (cs rest : List Char) (v : Nat)
    (h : extractUInt16 cs = some (v, rest)) : v < 65536 := by
  unfold extractUInt16 at h
  simp only at h
  split_ifs at h
  all_goals
    simp only [Option.some.injEq, Prod.mk.injEq] at h
    obtain ⟨rfl, _⟩ := h
    first
      | exact Nat.mod_lt _ (by decide)
      | omega

theorem getValueUInt16_lt (s : String) (v : Nat) (h : getValueUInt16 s = some v) :
    v < 65536 := by
  unfold getValueUInt16 at h
  split at h
  · exact absurd h (by simp)
  · rename_i w rest hx
    split_ifs at h
    simp only [Option.some.injEq] at h
    subst h
    exact extractUInt16_lt _ _ _ hx

theorem getOptional_lt (t : Ptree) (key : String) (v : Nat)
    (h : t.getOptional key = some v) : v < 65536 := by
  unfold getOptional at h
  split at h
  · exact absurd h (by simp)
  · exact getValueUInt16_lt _ _ h

theorem get_lt (t : Ptree) (key : String) (d : Nat) (hd : d < 65536) :
    t.get key d < 65536 := by
  unfold get
  split
  · exact hd
  · rename_i v hv
    exact getOptional_lt t key v hv

theorem digitChar_isDigit (d : Nat) (hd : d < 10) : (Nat.digitChar d).isDigit = true := by
  interval_cases d <;> decide

theorem digitChar_value (d : Nat) (hd : d < 10) :
    (Nat.digitChar d).toNat - '0'.toNat = d := by
  interval_cases d <;> decide

theorem digitsValue_append (ds : List Char) (c : Char) :
    digitsValue (ds ++ [c]) = 10 * digitsValue ds + (c.toNat - '0'.toNat) := by
  simp [digitsValue, List.foldl_append]

/-- The digit generator emits, in front of the accumulator, a non-empty run of decimal
digits whose value is the number converted. -/
theorem toDigitsCore_spec (fuel : Nat) : ∀ (n : Nat) (acc : List Char), n < fuel →
    ∃ ds, Nat.toDigitsCore 10 fuel n acc = ds ++ acc ∧ ds ≠ [] ∧
      (∀ c ∈ ds, c.isDigit = true) ∧ digitsValue ds = n := by
  induction fuel with
  | zero => intro n acc h; omega
  | succ fuel ih =>
    intro n acc hn
    by_cases h0 : n / 10 = 0
    · refine ⟨[Nat.digitChar (n % 10)], ?_, by simp, ?_, ?_⟩
      · simp [Nat.toDigitsCore, h0]
      · intro c hc
        simp only [List.mem_singleton] at hc
        subst hc
        exact digitChar_isDigit _ (Nat.mod_lt _ (by decide))
      · have := digitsValue_append [] (Nat.digitChar (n % 10))
        simp only [List.nil_append] at this
        rw [this, digitChar_value _ (Nat.mod_lt _ (by decide))]
        simp only [digitsValue, List.foldl_nil]
        omega
    · have hlt : n / 10 < fuel := by omega
      obtain ⟨ds, hds, -, hall, hval⟩ := ih (n / 10) (Nat.digitChar (n % 10) :: acc) hlt
      refine ⟨ds ++ [Nat.digitChar (n % 10)], ?_, by simp, ?_, ?_⟩
      · simp [Nat.toDigitsCore, h0, hds]
      · intro c hc
        rcases List.mem_append.mp hc with hc | hc
        · exact hall c hc
        · simp only [List.mem_singleton] at hc
          subst hc
          exact digitChar_isDigit _ (Nat.mod_lt _ (by decide))
      · rw [digitsValue_append, hval, digitChar_value _ (Nat.mod_lt _ (by decide))]
        omega

theorem isSpace_of_isDigit (c : Char) (h : c.isDigit = true) : isSpace c = false := by
  by_contra hs
  simp only [Bool.not_eq_false, isSpace, Bool.or_eq_true, decide_eq_true_eq] at hs
  rcases hs with ((((hs | hs) | hs) | hs) | hs) | hs <;> subst hs <;> exact absurd h (by decide)

theorem extractUInt16_digits (ds : List Char) (hne : ds ≠ [])
    (hall : ∀ c ∈ ds, c.isDigit = true) (hv : digitsValue ds ≤ 65535) :
    extractUInt16 ds = some (digitsValue ds, []) := by
  obtain ⟨c, tl, rfl⟩ := List.exists_cons_of_ne_nil hne
  have hc : c.isDigit = true := hall c (List.mem_cons_self _ _)
  have hsp : isSpace c = false := isSpace_of_isDigit c hc
  have hminus : c ≠ '-' := fun h => absurd (h ▸ hc) (by decide)
  have hplus : c ≠ '+' := fun h => absurd (h ▸ hc) (by decide)
  have htake : List.takeWhile Char.isDigit (c :: tl) = c :: tl :=
    List.takeWhile_eq_self_iff.mpr hall
  have hdrop : List.dropWhile Char.isDigit (c :: tl) = [] :=
    List.dropWhile_eq_nil_iff.mpr hall
  have h1 : List.dropWhile isSpace (c :: tl) = c :: tl := by
    simp [List.dropWhile, hsp]
  unfold extractUInt16
  simp only [h1, List.head?_cons, Option.some.injEq, hminus, hplus, or_self, if_false,
    htake, hdrop]
  simp [Nat.not_lt.mpr hv]

/-- Writing a 16-bit value and reading it back through the stream translator
returns the value. -/
theorem getValueUInt16_putValueUInt16 (v : Nat) (hv : v < 65536) :
    getValueUInt16 (putValueUInt16 v) = some v := by
  obtain ⟨ds, hds, hne, hall, hval⟩ := toDigitsCore_spec (v + 1) v [] (Nat.lt_succ_self v)
  have hd : (putValueUInt16 v).data = ds := by
    simp [putValueUInt16, Nat.toDigits, hds]
  have hx := extractUInt16_digits ds hne hall (by omega)
  unfold getValueUInt16
  rw [hd, hx]
  simp [hval]

end Ptree

/-! ## Lemmas on the metadata exchange -/

namespace Metadata

theorem findTag_eraseTag_same (tag : String) (es : List (String × MetadataValue)) :
    findTag tag (eraseTag tag es) = none := by
  induction es with
  | nil => simp [eraseTag, findTag]
  | cons e rest ih =>
    obtain ⟨k, v⟩ := e
    by_cases h : k = tag
    · simp [eraseTag, h, ih]
    · simp [eraseTag, h, findTag, ih]

theorem findTag_eraseTag_ne (tag k : String) (hk : k ≠ tag)
    (es : List (String × MetadataValue)) :
    findTag k (eraseTag tag es) = findTag k es := by
  induction es with
  | nil => simp [eraseTag, findTag]
  | cons e rest ih =>
    obtain ⟨k0, v⟩ := e
    by_cases h : k0 = tag
    · subst h
      simp [eraseTag, findTag, Ne.symm hk, ih]
    · by_cases h1 : k0 = k
      · subst h1
        simp [eraseTag, findTag, h]
      · simp [eraseTag, findTag, h, h1, ih]

theorem countTag_eraseTag_same (tag : String) (es : List (String × MetadataValue)) :
    countTag tag (eraseTag tag es) = 0 := by
  induction es with
  | nil => simp [eraseTag, countTag]
  | cons e rest ih =>
    obtain ⟨k, v⟩ := e
    by_cases h : k = tag
    · simp [eraseTag, h, ih]
    · simp [eraseTag, h, countTag, ih]

theorem countTag_eraseTag_ne (tag k : String) (hk : k ≠ tag)
    (es : List (String × MetadataValue)) :
    countTag k (eraseTag tag es) = countTag k es := by
  induction es with
  | nil => simp [eraseTag, countTag]
  | cons e rest ih =>
    obtain ⟨k0, v⟩ := e
    by_cases h : k0 = tag
    · subst h
      simp [eraseTag, countTag, Ne.symm hk, ih]
    · by_cases h1 : k0 = k
      · subst h1
        simp [eraseTag, countTag, h, ih]
      · simp [eraseTag, countTag, h, h1, ih]

theorem eraseTag_eraseTag (tag : String) (es : List (String × MetadataValue)) :
    eraseTag tag (eraseTag tag es) = eraseTag tag es := by
  induction es with
  | nil => simp [eraseTag]
  | cons e rest ih =>
    obtain ⟨k, v⟩ := e
    by_cases h : k = tag
    · simp [eraseTag, h, ih]
    · simp [eraseTag, h, ih]

theorem get_set_same (m : Metadata) (tag : String) (value : MetadataValue) :
    (m.set tag value).get tag = some value := by
  simp [get, set, findTag]

theorem get_set_ne (m : Metadata) (tag k : String) (value : MetadataValue) (hk : k ≠ tag) :
    (m.set tag value).get k = m.get k := by
  simp [get, set, findTag, Ne.symm hk, findTag_eraseTag_ne tag k hk]

theorem count_set_same (m : Metadata) (tag : String) (value : MetadataValue) :
    (m.set tag value).count tag = 1 := by
  simp [count, set, countTag, countTag_eraseTag_same]

theorem count_set_ne (m : Metadata) (tag k : String) (value : MetadataValue) (hk : k ≠ tag) :
    (m.set tag value).count k = m.count k := by
  simp [count, set, countTag, Ne.symm hk, countTag_eraseTag_ne tag k hk]

theorem set_set (m : Metadata) (tag : String) (v w : MetadataValue) :
    (m.set tag v).set tag w = m.set tag w := by
  simp [set, eraseTag, eraseTag_eraseTag]

end Metadata

/-! ## Lemmas on `read` and `prepare` -/

namespace Ptree

theorem get_of_absent (t : Ptree) (key : String) (d : Nat) (h : t.getChild key = none) :
    t.get key d = d := by
  simp [get, getOptional, h]

theorem get_of_value (t : Ptree) (key : String) (d v : Nat) (c : Ptree)
    (h : t.getChild key = some c) (hv : getValueUInt16 c.data = some v) :
    t.get key d = v := by
  simp [get, getOptional, h, hv]

theorem get_of_unconvertible (t : Ptree) (key : String) (d : Nat) (c : Ptree)
    (h : t.getChild key = some c) (hv : getValueUInt16 c.data = none) :
    t.get key d = d := by
  simp [get, getOptional, h, hv]

theorem get_congr (p q : Ptree) (key : String) (d : Nat)
    (h : p.getChild key = q.getChild key) : p.get key d = q.get key d := by
  simp [get, getOptional, h]

theorem get_of_isSome (t : Ptree) (key : String) (d e : Nat)
    (h : (t.getOptional key).isSome = true) : t.get key d = t.get key e := by
  unfold get
  cases hx : t.getOptional key with
  | none => rw [hx] at h; exact absurd h (by simp)
  | some v => rfl

theorem get_put_same (t : Ptree) (key : String) (v d : Nat) (hv : v < 65536) :
    (t.put key v).get key d = v := by
  obtain ⟨c, hc, hd⟩ := getChild_put_same t key v
  exact get_of_value _ key d v c hc (by rw [hd]; exact getValueUInt16_putValueUInt16 v hv)

theorem get_put_ne (t : Ptree) (key k : String) (v d : Nat) (hk : k ≠ key) :
    (t.put key v).get k d = t.get k d :=
  get_congr _ _ k d (getChild_put_ne t key k v hk)

end Ptree

theorem unconvertibleAt_get (params : Ptree) (key : String) (d : Nat)
    (h : unconvertibleAt params key = true) : params.get key d = d := by
  unfold unconvertibleAt at h
  split at h
  · exact absurd h (by simp)
  · rename_i c hc
    exact Ptree.get_of_unconvertible params key d c hc (by simpa using h)

theorem get_erase_of_unconvertible (params : Ptree) (key : String)
    (h : unconvertibleAt params key = true) (k : String) (d : Nat) :
    (params.erase key).get k d = params.get k d := by
  by_cases hk : k = key
  · subst hk
    rw [Ptree.get_of_absent _ _ _ (Ptree.getChild_erase_same params k),
      unconvertibleAt_get params k d h]
  · exact Ptree.get_congr _ _ k d (Ptree.getChild_erase_ne params key k hk)

theorem read_erase_of_unconvertible (self : BlackLevel) (params : Ptree) (key : String)
    (h : unconvertibleAt params key = true) :
    self.read (params.erase key) = self.read params := by
  simp [BlackLevel.read, get_erase_of_unconvertible params key h]

theorem publishedAfterRead_eq (self : BlackLevel) (params : Ptree) (m : Metadata) :
    publishedAfterRead self params m
      = some (MetadataValue.blackLevel (statusOf (self.read params).2)) := by
  simp [publishedAfterRead, BlackLevel.prepare, Metadata.get_set_same, statusOf]

theorem validAt_specChannel (params : Ptree) (key : String)
    (hk : validAt params key = true) (hb : validAt params "black_level" = true) :
    specChannel params key = some (params.get key (params.get "black_level" 4096)) := by
  unfold specChannel
  cases hc : params.getChild key with
  | some c =>
    simp only [validAt, hc] at hk
    obtain ⟨v, hv⟩ := Option.isSome_iff_exists.mp hk
    simp [valueOf, hv, Ptree.get_of_value params key _ v c hc hv]
  | none =>
    rw [Ptree.get_of_absent params key _ hc]
    cases hbl : params.getChild "black_level" with
    | some c =>
      simp only [validAt, hbl] at hb
      obtain ⟨v, hv⟩ := Option.isSome_iff_exists.mp hb
      simp [valueOf, hv, Ptree.get_of_value params "black_level" _ v c hbl hv]
    | none => simp [Ptree.get_of_absent params "black_level" _ hbl]

theorem statusOf_read (self : BlackLevel) (params : Ptree) :
    statusOf (self.read params).2
      = ⟨params.get "black_level_r" (params.get "black_level" 4096),
         params.get "black_level_g" (params.get "black_level" 4096),
         params.get "black_level_b" (params.get "black_level" 4096)⟩ := rfl

theorem validConfig_validAt (params : Ptree) (h : validConfig params = true) :
    validAt params "black_level" = true ∧ validAt params "black_level_r" = true ∧
      validAt params "black_level_g" = true ∧ validAt params "black_level_b" = true := by
  simpa [validConfig, blackLevelKeys] using h

theorem allAbsent_getChild (params : Ptree) (h : allAbsent params = true) :
    params.getChild "black_level" = none ∧ params.getChild "black_level_r" = none ∧
      params.getChild "black_level_g" = none ∧ params.getChild "black_level_b" = none := by
  simpa [allAbsent, blackLevelKeys, present] using h

theorem dropWhile_isSpace_of_head (cs : List Char)
    (h : ∀ c, cs.head? = some c → Ptree.isSpace c = false) :
    cs.dropWhile Ptree.isSpace = cs := by
  cases cs with
  | nil => rfl
  | cons c tl => simp [List.dropWhile, h c rfl]

/-- Extraction from a sign followed by digits only, or from digits only: the whole text
is consumed, a magnitude above 65535 fails, and a minus wraps modulo `2 ^ 16`. -/
theorem extractUInt16_literal (cs : List Char)
    (hne : (if cs.head? = some '-' ∨ cs.head? = some '+' then cs.tail else cs) ≠ [])
    (hall : ∀ c ∈ (if cs.head? = some '-' ∨ cs.head? = some '+' then cs.tail else cs),
      c.isDigit = true) :
    Ptree.extractUInt16 cs
      = if 65535 < Ptree.digitsValue
            (if cs.head? = some '-' ∨ cs.head? = some '+' then cs.tail else cs) then none
        else some
          (if cs.head? = some '-' then
              (65536 - Ptree.digitsValue
                (if cs.head? = some '-' ∨ cs.head? = some '+' then cs.tail else cs)) % 65536
            else Ptree.digitsValue
              (if cs.head? = some '-' ∨ cs.head? = some '+' then cs.tail else cs), []) := by
  have hsp : cs.dropWhile Ptree.isSpace = cs := by
    apply dropWhile_isSpace_of_head
    intro c hc
    by_cases hm : c = '-'
    · subst hm; decide
    · by_cases hp : c = '+'
      · subst hp; decide
      · have hsig : ¬(cs.head? = some '-' ∨ cs.head? = some '+') := by
          rw [hc]
          simp only [Option.some.injEq]
          intro h
          rcases h with h | h
          · exact hm h
          · exact hp h
        rw [if_neg hsig] at hall
        have hmem : c ∈ cs := by
          cases cs with
          | nil => simp at hc
          | cons a tl =>
            simp only [List.head?_cons, Option.some.injEq] at hc
            subst hc
            exact List.mem_cons_self _ _
        exact Ptree.isSpace_of_isDigit c (hall c hmem)
  unfold Ptree.extractUInt16
  simp only [hsp]
  generalize (if cs.head? = some '-' ∨ cs.head? = some '+' then cs.tail else cs) = ds
    at hne hall ⊢
  rw [List.takeWhile_eq_self_iff.mpr hall, List.dropWhile_eq_nil_iff.mpr hall]
  simp [hne]

/-- The stream translator on a plain integer: a magnitude above 65535 does not
translate, any other integer translates to its residue modulo `2 ^ 16`. -/
theorem getValueUInt16_of_integerLiteral (s : String) (z : Int)
    (h : integerLiteral s = some z) :
    Ptree.getValueUInt16 s
      = if z < -65535 ∨ 65535 < z then none else some (z % 65536).toNat := by
  unfold integerLiteral at h
  simp only at h
  generalize hds : (if s.data.head? = some '-' ∨ s.data.head? = some '+' then s.data.tail
    else s.data) = ds at h
  by_cases hne : ds = []
  · simp [hne] at h
  by_cases hall : ds.all Char.isDigit = false
  · simp [hne, hall] at h
  rw [if_neg hne, if_neg hall] at h
  replace h := Option.some.inj h
  have hall2 : ∀ c ∈ ds, c.isDigit = true := by
    simpa [List.all_eq_true] using hall
  have hx := extractUInt16_literal s.data (by rw [hds]; exact hne) (by rw [hds]; exact hall2)
  rw [hds] at hx
  unfold Ptree.getValueUInt16
  rw [hx]
  by_cases hneg : s.data.head? = some '-'
  · rw [if_pos hneg] at h
    rw [if_pos hneg]
    by_cases hv : 65535 < Ptree.digitsValue ds
    · have hz : z < -65535 ∨ 65535 < z := by omega
      simp [hv, hz]
    · have hz : ¬(z < -65535 ∨ 65535 < z) := by omega
      simp only [hv, hz, if_false, List.dropWhile_nil, if_true, Option.some.injEq]
      omega
  · rw [if_neg hneg] at h
    rw [if_neg hneg]
    by_cases hv : 65535 < Ptree.digitsValue ds
    · have hz : z < -65535 ∨ 65535 < z := by omega
      simp [hv, hz]
    · have hz : ¬(z < -65535 ∨ 65535 < z) := by omega
      simp only [hv, hz, if_false, List.dropWhile_nil, if_true, Option.some.injEq]
      omega

theorem get_erase_of_getOptional_none (params : Ptree) (key : String)
    (h : params.getOptional key = none) (k : String) (d : Nat) :
    (params.erase key).get k d = params.get k d := by
  by_cases hk : k = key
  · subst hk
    rw [Ptree.get_of_absent _ _ _ (Ptree.getChild_erase_same params k)]
    simp [Ptree.get, h]
  · exact Ptree.get_congr _ _ k d (Ptree.getChild_erase_ne params key k hk)

/-! ## The properties -/

/-- C1: for every configuration subtree whose present values among the four keys are
valid 16-bit unsigned integers, `read` followed by `prepare` on any exchange stores
under `"black_level.status"` a record whose red, green and blue fields are the value of
the channel's own key when present, otherwise the value of `black_level` when present,
otherwise 4096. In particular `{black_level: 2048}` publishes (2048, 2048, 2048) and
`{black_level_r: 100, black_level: 2048}` publishes (100, 2048, 2048). -/
theorem read_prepare_publishes_configured (self : BlackLevel) (params : Ptree)
    (m : Metadata) (hvalid : validConfig params = true) :
    (∃ st, publishedAfterRead self params m = some (MetadataValue.blackLevel st) ∧
      specChannel params "black_level_r" = some st.blackLevelR ∧
      specChannel params "black_level_g" = some st.blackLevelG ∧
      specChannel params "black_level_b" = some st.blackLevelB) ∧
    publishedAfterRead self configBase m
      = some (MetadataValue.blackLevel ⟨2048, 2048, 2048⟩) ∧
    publishedAfterRead self configRedBase m
      = some (MetadataValue.blackLevel ⟨100, 2048, 2048⟩) := by
  obtain ⟨hb, hr, hg, hbl⟩ := validConfig_validAt params hvalid
  refine ⟨⟨statusOf (self.read params).2, publishedAfterRead_eq self params m, ?_, ?_, ?_⟩,
    ?_, ?_⟩
  · rw [statusOf_read]; exact validAt_specChannel params _ hr hb
  · rw [statusOf_read]; exact validAt_specChannel params _ hg hb
  · rw [statusOf_read]; exact validAt_specChannel params _ hbl hb
  · rw [publishedAfterRead_eq, statusOf_read]; decide
  · rw [publishedAfterRead_eq, statusOf_read]; decide

/-- C1 at the configuration `{black_level_r: 100, black_level: 2048}`. -/
theorem read_prepare_publishes_configured_witness :
    validConfig configRedBase = true ∧
    ((∃ st, publishedAfterRead sampleInstance configRedBase sampleExchange
        = some (MetadataValue.blackLevel st) ∧
      specChannel configRedBase "black_level_r" = some st.blackLevelR ∧
      specChannel configRedBase "black_level_g" = some st.blackLevelG ∧
      specChannel configRedBase "black_level_b" = some st.blackLevelB) ∧
    publishedAfterRead sampleInstance configBase sampleExchange
      = some (MetadataValue.blackLevel ⟨2048, 2048, 2048⟩) ∧
    publishedAfterRead sampleInstance configRedBase sampleExchange
      = some (MetadataValue.blackLevel ⟨100, 2048, 2048⟩)) :=
  ⟨by decide,
    read_prepare_publishes_configured sampleInstance configRedBase sampleExchange (by decide)⟩

/-- C2, as the code has it: `read` has no failure path. On the configuration
`{black_level: 70000}`, whose value lies outside 0..65535, the value does not
translate, yet `read` reports success (returns 0) and stores the default 4096 in all
three offsets. -/
theorem read_out_of_range_reports_success :
    mismatchAt configOutOfRange "black_level" = true ∧
    unconvertibleAt configOutOfRange "black_level" = true ∧
    (sampleInstance.read configOutOfRange).1 = 0 ∧
    statusOf (sampleInstance.read configOutOfRange).2 = ⟨4096, 4096, 4096⟩ := by
  decide

/-- C2, amended: for every configuration subtree in which a key is present with a
value outside the declared numeric range 0..65535, or not a number at all, `read`
reports success (returns 0). What `read` does there instead of failing is recorded
with it: the three offsets are assigned afresh, whatever the prior state, and lie in
0..65535; when the typed read of the key yields nothing the result is the one for the
subtree without the key; and for a value that is a plain integer `z`, necessarily
outside 0..65535, the typed read yields nothing when `z` is above 65535 or below
-65535 and yields `z + 65536` otherwise. -/
theorem read_succeeds_on_mismatch (self other : BlackLevel) (params : Ptree)
    (key : String) (hbad : mismatchAt params key = true) :
    (self.read params).1 = 0 ∧
    (self.read params).2.blackLevelR_ < 65536 ∧
    (self.read params).2.blackLevelG_ < 65536 ∧
    (self.read params).2.blackLevelB_ < 65536 ∧
    statusOf (other.read params).2 = statusOf (self.read params).2 ∧
    (params.getOptional key = none → self.read params = self.read (params.erase key)) ∧
    ∃ c, params.getChild key = some c ∧
      ∀ z, integerLiteral c.data = some z →
        (z < 0 ∨ 65535 < z) ∧
        params.getOptional key
          = if z < -65535 ∨ 65535 < z then none else some (z + 65536).toNat := by
  have hbase : params.get "black_level" 4096 < 65536 := Ptree.get_lt _ _ _ (by decide)
  refine ⟨rfl, Ptree.get_lt _ _ _ hbase, Ptree.get_lt _ _ _ hbase, Ptree.get_lt _ _ _ hbase,
    rfl, ?_, ?_⟩
  · intro h
    simp [BlackLevel.read, get_erase_of_getOptional_none params key h]
  · unfold mismatchAt at hbad
    cases hc : params.getChild key with
    | none => rw [hc] at hbad; exact absurd hbad (by simp)
    | some c =>
      rw [hc] at hbad
      refine ⟨c, rfl, ?_⟩
      intro z hz
      have hrange : z < 0 ∨ 65535 < z := by
        simp only [inDeclaredRange, hz, Bool.not_eq_true', decide_eq_false_iff_not] at hbad
        omega
      refine ⟨hrange, ?_⟩
      have hv := getValueUInt16_of_integerLiteral c.data z hz
      simp only [Ptree.getOptional, hc, hv]
      by_cases hout : z < -65535 ∨ 65535 < z
      · simp [hout]
      · simp only [hout, if_false, Option.some.injEq]
        omega

/-- C2, amended, at the configuration `{black_level: -1}`: `read` reports success, and
the typed read of the key yields 65535. -/
theorem read_succeeds_on_mismatch_witness :
    mismatchAt configNegative "black_level" = true ∧
    (sampleInstance.read configNegative).1 = 0 ∧
    statusOf ((⟨⟨2⟩, 0, 0, 0⟩ : BlackLevel).read configNegative).2
      = statusOf (sampleInstance.read configNegative).2 ∧
    ∃ c, configNegative.getChild "black_level" = some c ∧
      ∀ z, integerLiteral c.data = some z →
        (z < 0 ∨ 65535 < z) ∧
        configNegative.getOptional "black_level"
          = if z < -65535 ∨ 65535 < z then none else some (z + 65536).toNat :=
  have h := read_succeeds_on_mismatch sampleInstance ⟨⟨2⟩, 0, 0, 0⟩ configNegative
    "black_level" (by decide)
  ⟨by decide, h.1, h.2.2.2.2.1, h.2.2.2.2.2.2⟩

/-- C3: for every triple (r, g, b) of 16-bit unsigned integers, writing the three
channel keys into any configuration subtree (whatever it holds under `black_level` or
elsewhere), feeding it through `read` and reading back the record published by
`prepare` under `"black_level.status"` gives exactly (r, g, b). -/
theorem read_prepare_round_trip (self : BlackLevel) (base : Ptree) (m : Metadata)
    (r g b : Nat) (hr : r < 65536) (hg : g < 65536) (hb : b < 65536) :
    publishedAfterRead self
        (((base.put "black_level_r" r).put "black_level_g" g).put "black_level_b" b) m
      = some (MetadataValue.blackLevel ⟨r, g, b⟩) := by
  rw [publishedAfterRead_eq, statusOf_read]
  have hR : ∀ d, (((base.put "black_level_r" r).put "black_level_g" g).put
      "black_level_b" b).get "black_level_r" d = r := by
    intro d
    rw [Ptree.get_put_ne _ _ _ _ _ (by decide), Ptree.get_put_ne _ _ _ _ _ (by decide),
      Ptree.get_put_same _ _ _ _ hr]
  have hG : ∀ d, (((base.put "black_level_r" r).put "black_level_g" g).put
      "black_level_b" b).get "black_level_g" d = g := by
    intro d
    rw [Ptree.get_put_ne _ _ _ _ _ (by decide), Ptree.get_put_same _ _ _ _ hg]
  have hB : ∀ d, (((base.put "black_level_r" r).put "black_level_g" g).put
      "black_level_b" b).get "black_level_b" d = b := by
    intro d
    rw [Ptree.get_put_same _ _ _ _ hb]
  rw [hR, hG, hB]

/-- C3 at (65535, 0, 300) written over `{black_level: 2048}`. -/
theorem read_prepare_round_trip_witness :
    (65535 : Nat) < 65536 ∧ (0 : Nat) < 65536 ∧ (300 : Nat) < 65536 ∧
    publishedAfterRead sampleInstance
        (((configBase.put "black_level_r" 65535).put "black_level_g" 0).put
          "black_level_b" 300) sampleExchange
      = some (MetadataValue.blackLevel ⟨65535, 0, 300⟩) :=
  ⟨by decide, by decide, by decide,
    read_prepare_round_trip sampleInstance configBase sampleExchange 65535 0 300
      (by decide) (by decide) (by decide)⟩

/-- C4: for a configuration subtree in which all four keys are absent, such as the
empty subtree, `read` followed by `prepare` publishes the default triple
(4096, 4096, 4096), and 4096 is 64 at 10-bit depth scaled to 16 bits,
`64 * 2 ^ (16 - 10)`. -/
theorem read_prepare_default_triple (self : BlackLevel) (params : Ptree) (m : Metadata)
    (habsent : allAbsent params = true) :
    publishedAfterRead self params m
        = some (MetadataValue.blackLevel ⟨4096, 4096, 4096⟩) ∧
    publishedAfterRead self Ptree.empty m
        = some (MetadataValue.blackLevel
            ⟨64 * 2 ^ (16 - 10), 64 * 2 ^ (16 - 10), 64 * 2 ^ (16 - 10)⟩) := by
  obtain ⟨h0, h1, h2, h3⟩ := allAbsent_getChild params habsent
  constructor
  · rw [publishedAfterRead_eq, statusOf_read, Ptree.get_of_absent params _ _ h0,
      Ptree.get_of_absent params _ _ h1, Ptree.get_of_absent params _ _ h2,
      Ptree.get_of_absent params _ _ h3]
  · rw [publishedAfterRead_eq, statusOf_read]; decide

/-- C4 at the empty subtree. -/
theorem read_prepare_default_triple_witness :
    allAbsent Ptree.empty = true ∧
    publishedAfterRead sampleInstance Ptree.empty sampleExchange
        = some (MetadataValue.blackLevel ⟨4096, 4096, 4096⟩) ∧
    publishedAfterRead sampleInstance Ptree.empty sampleExchange
        = some (MetadataValue.blackLevel
            ⟨64 * 2 ^ (16 - 10), 64 * 2 ^ (16 - 10), 64 * 2 ^ (16 - 10)⟩) :=
  ⟨by decide,
    read_prepare_default_triple sampleInstance Ptree.empty sampleExchange (by decide)⟩

theorem prepareFrames_eq (self : BlackLevel) (ms : List Metadata) :
    prepareFrames self ms = (self, ms.map (fun m => (self.prepare m).2)) := by
  induction ms with
  | nil => rfl
  | cons m rest ih =>
    have h1 : (self.prepare m).1 = self := rfl
    simp [prepareFrames, h1, ih]

theorem get_of_agreeOff (key k : String) (p q : Ptree) (d : Nat) (h : agreeOff key p q)
    (hk : k ≠ key) : p.get k d = q.get k d :=
  Ptree.get_congr p q k d (h k hk)

theorem getOptional_of_agreeOff (key k : String) (p q : Ptree) (h : agreeOff key p q)
    (hk : k ≠ key) : p.getOptional k = q.getOptional k := by
  simp [Ptree.getOptional, h k hk]

/-- A channel read from two subtrees that differ at most at `key` gives the same value
when the channel key is not `key` and either the base key is not `key` or the channel
key translates. -/
theorem channel_of_agreeOff (key chan : String) (p q : Ptree) (h : agreeOff key p q)
    (hc : chan ≠ key)
    (hb : "black_level" ≠ key ∨ (p.getOptional chan).isSome = true) :
    p.get chan (p.get "black_level" 4096) = q.get chan (q.get "black_level" 4096) := by
  rcases hb with hb | hb
  · rw [get_of_agreeOff key "black_level" p q 4096 h hb, get_of_agreeOff key chan p q _ h hc]
  · rw [Ptree.get_of_isSome p chan _ (q.get "black_level" 4096) hb,
      get_of_agreeOff key chan p q _ h hc]

/-- C5: running `prepare` twice on the same exchange overwrites the prior record:
the second call with the same state leaves the exchange as the first call left it, the
exchange holds exactly one record under `"black_level.status"` after each call, and
when a `read` changed the state between the two calls the record is the status of the
second call's state alone, the exchange being the one a single call with that state
produces. -/
theorem prepare_twice_overwrites (self : BlackLevel) (m : Metadata) (params : Ptree) :
    (self.prepare (self.prepare m).2).2 = (self.prepare m).2 ∧
    (self.prepare m).2.count "black_level.status" = 1 ∧
    (self.prepare (self.prepare m).2).2.count "black_level.status" = 1 ∧
    ((((self.prepare m).1.read params).2.prepare (self.prepare m).2).2.get
        "black_level.status"
      = some (MetadataValue.blackLevel (statusOf ((self.prepare m).1.read params).2))) ∧
    (((self.prepare m).1.read params).2.prepare (self.prepare m).2).2.count
        "black_level.status" = 1 ∧
    (((self.prepare m).1.read params).2.prepare (self.prepare m).2).2
      = (((self.prepare m).1.read params).2.prepare m).2 := by
  refine ⟨?_, ?_, ?_, ?_, ?_, ?_⟩
  · simp [BlackLevel.prepare, Metadata.set_set]
  · simp [BlackLevel.prepare, Metadata.count_set_same]
  · simp [BlackLevel.prepare, Metadata.count_set_same]
  · simp [BlackLevel.prepare, Metadata.get_set_same, statusOf]
  · simp [BlackLevel.prepare, Metadata.count_set_same]
  · simp [BlackLevel.prepare, Metadata.set_set]

/-- C6: `prepare` changes nothing in the exchange except its own key: for every key
other than `"black_level.status"` the lookup after `prepare` returns what it returned
before, present with the same record or absent, and the number of records under that
key is unchanged. -/
theorem prepare_frame (self : BlackLevel) (m : Metadata) (k : String)
    (hk : k ≠ "black_level.status") :
    (self.prepare m).2.get k = m.get k ∧ (self.prepare m).2.count k = m.count k := by
  simp [BlackLevel.prepare, Metadata.get_set_ne _ _ _ _ hk, Metadata.count_set_ne _ _ _ _ hk]

/-- C6 at the key `"awb.status"` of an exchange holding two records. -/
theorem prepare_frame_witness :
    "awb.status" ≠ "black_level.status" ∧
    (sampleInstance.prepare sampleExchange).2.get "awb.status"
      = sampleExchange.get "awb.status" ∧
    (sampleInstance.prepare sampleExchange).2.count "awb.status"
      = sampleExchange.count "awb.status" :=
  ⟨by decide, prepare_frame sampleInstance sampleExchange "awb.status" (by decide)⟩

/-- C7: the name under which the algorithm registers its factory is
`"rpi.black_level"`, it is the value `name()` returns on every instance the registered
factory creates, and `name()` returns the same value before and after `read` and
`prepare`. -/
theorem name_is_registry_key (controller : Controller) (indeterminate : Nat × Nat × Nat)
    (self : BlackLevel) (params : Ptree) (m : Metadata) :
    reg.name = "rpi.black_level" ∧
    (reg.createFunc controller indeterminate).name = reg.name ∧
    self.name = "rpi.black_level" ∧
    (self.read params).2.name = self.name ∧
    (self.prepare m).1.name = self.name ∧
    (((self.read params).2.prepare m).1).name = self.name :=
  ⟨rfl, rfl, rfl, rfl, rfl, rfl⟩

/-- C8: `prepare` leaves the stored offsets unchanged, so after a single `read`, for
every sequence of exchanges with arbitrary prior contents, driving `prepare` once per
exchange ends in the state `read` left, produces one exchange per frame, and every
produced exchange holds under `"black_level.status"` the triple that `read` stored. -/
theorem prepare_every_frame (self : BlackLevel) (params : Ptree) (m : Metadata)
    (ms : List Metadata) :
    ((self.read params).2.prepare m).1 = (self.read params).2 ∧
    (prepareFrames (self.read params).2 ms).1 = (self.read params).2 ∧
    (prepareFrames (self.read params).2 ms).2.length = ms.length ∧
    (prepareFrames (self.read params).2 ms).2.map
        (fun e => e.get "black_level.status")
      = List.replicate ms.length
          (some (MetadataValue.blackLevel (statusOf (self.read params).2))) := by
  refine ⟨rfl, ?_, ?_, ?_⟩
  · rw [prepareFrames_eq]
  · rw [prepareFrames_eq]; simp
  · rw [prepareFrames_eq]
    simp only [List.map_map]
    rw [List.eq_replicate_iff]
    refine ⟨by simp, ?_⟩
    intro x hx
    obtain ⟨e, -, rfl⟩ := List.mem_map.mp hx
    simp [BlackLevel.prepare, Metadata.get_set_same, statusOf]

/-- C9, as the code has it: the configurations `{black_level_r: abc, black_level: 100}`
and `{black_level_r: abc, black_level: 200}` differ only in the value of `black_level`
and both hold the red channel's own key, yet the published red field differs
(100 against 200): `black_level` reaches a channel whose own key is present when that
key's value does not translate. -/
theorem base_reaches_present_channel :
    agreeOff "black_level" configBadRedBase100 configBadRedBase200 ∧
    present configBadRedBase100 "black_level_r" = true ∧
    present configBadRedBase200 "black_level_r" = true ∧
    publishedAfterRead sampleInstance configBadRedBase100 sampleExchange
      = some (MetadataValue.blackLevel ⟨100, 100, 100⟩) ∧
    publishedAfterRead sampleInstance configBadRedBase200 sampleExchange
      = some (MetadataValue.blackLevel ⟨200, 200, 200⟩) := by
  refine ⟨?_, by decide, by decide, by decide, by decide⟩
  intro k hk
  by_cases h : "black_level_r" = k
  · simp [configBadRedBase100, configBadRedBase200, Ptree.getChild, Ptree.children,
      Ptree.findChild, h]
  · simp [configBadRedBase100, configBadRedBase200, Ptree.getChild, Ptree.children,
      Ptree.findChild, h, Ne.symm hk]

/-- C9, amended: for two configuration subtrees that differ at most in the presence or
value of one key, the records published after `read` and `prepare` agree in green and
blue when the key is `black_level_r`, in red and blue when it is `black_level_g`, in
red and green when it is `black_level_b`; a key other than `black_level` leaves every
channel whose own key it is not unchanged; and `black_level` leaves a channel unchanged
whenever that channel's own key is present with a value that translates to a 16-bit
unsigned integer, so it influences a channel only when the channel's own key is absent
or does not translate. -/
theorem channel_noninterference (s1 s2 : BlackLevel) (p q : Ptree) (m1 m2 : Metadata)
    (key : String) (hagree : agreeOff key p q) :
    ∃ st1 st2,
      publishedAfterRead s1 p m1 = some (MetadataValue.blackLevel st1) ∧
      publishedAfterRead s2 q m2 = some (MetadataValue.blackLevel st2) ∧
      (key = "black_level_r" →
        st1.blackLevelG = st2.blackLevelG ∧ st1.blackLevelB = st2.blackLevelB) ∧
      (key = "black_level_g" →
        st1.blackLevelR = st2.blackLevelR ∧ st1.blackLevelB = st2.blackLevelB) ∧
      (key = "black_level_b" →
        st1.blackLevelR = st2.blackLevelR ∧ st1.blackLevelG = st2.blackLevelG) ∧
      (key ≠ "black_level" →
        (key ≠ "black_level_r" → st1.blackLevelR = st2.blackLevelR) ∧
        (key ≠ "black_level_g" → st1.blackLevelG = st2.blackLevelG) ∧
        (key ≠ "black_level_b" → st1.blackLevelB = st2.blackLevelB)) ∧
      (key = "black_level" →
        ((p.getOptional "black_level_r").isSome = true →
          st1.blackLevelR = st2.blackLevelR) ∧
        ((p.getOptional "black_level_g").isSome = true →
          st1.blackLevelG = st2.blackLevelG) ∧
        ((p.getOptional "black_level_b").isSome = true →
          st1.blackLevelB = st2.blackLevelB)) := by
  have hgen : ∀ chan, chan ≠ key → key ≠ "black_level" →
      p.get chan (p.get "black_level" 4096) = q.get chan (q.get "black_level" 4096) :=
    fun chan hc hb => channel_of_agreeOff key chan p q hagree hc (Or.inl (Ne.symm hb))
  refine ⟨statusOf (s1.read p).2, statusOf (s2.read q).2, publishedAfterRead_eq s1 p m1,
    publishedAfterRead_eq s2 q m2, ?_, ?_, ?_, ?_, ?_⟩
  · intro hk
    subst hk
    exact ⟨hgen _ (by decide) (by decide), hgen _ (by decide) (by decide)⟩
  · intro hk
    subst hk
    exact ⟨hgen _ (by decide) (by decide), hgen _ (by decide) (by decide)⟩
  · intro hk
    subst hk
    exact ⟨hgen _ (by decide) (by decide), hgen _ (by decide) (by decide)⟩
  · intro hb
    exact ⟨fun h => hgen _ (Ne.symm h) hb, fun h => hgen _ (Ne.symm h) hb,
      fun h => hgen _ (Ne.symm h) hb⟩
  · intro hk
    subst hk
    exact ⟨fun h => channel_of_agreeOff _ _ p q hagree (by decide) (Or.inr h),
      fun h => channel_of_agreeOff _ _ p q hagree (by decide) (Or.inr h),
      fun h => channel_of_agreeOff _ _ p q hagree (by decide) (Or.inr h)⟩

/-- C9, amended, at `{black_level_r: 100, black_level: 2048}` against `{black_level: 2048}`. -/
theorem channel_noninterference_witness :
    agreeOff "black_level_r" configRedBase configBase ∧
    ∃ st1 st2,
      publishedAfterRead sampleInstance configRedBase sampleExchange
        = some (MetadataValue.blackLevel st1) ∧
      publishedAfterRead sampleInstance configBase sampleExchange
        = some (MetadataValue.blackLevel st2) ∧
      st1.blackLevelG = st2.blackLevelG ∧ st1.blackLevelB = st2.blackLevelB := by
  have hagree : agreeOff "black_level_r" configRedBase configBase := by
    intro k hk
    simp [configRedBase, configBase, Ptree.getChild, Ptree.children, Ptree.findChild,
      Ne.symm hk]
  obtain ⟨st1, st2, h1, h2, hr, -⟩ :=
    channel_noninterference sampleInstance sampleInstance configRedBase configBase
      sampleExchange sampleExchange "black_level_r" hagree
  exact ⟨hagree, st1, st2, h1, h2, hr rfl⟩

/-- C10: `read` is total and never reports an error: for every configuration subtree
and every prior state it returns 0, the three stored offsets lie in 0..65535 and do not
depend on the state held before the call, and a key that is present with a value that
does not translate to a 16-bit unsigned integer is treated as an absent key: the result
is the one for the subtree with that key removed, an unconvertible `black_level` makes
the base 4096, and an unconvertible `black_level_r`, `black_level_g` or `black_level_b`
gives that channel the base value. -/
theorem read_total (self other : BlackLevel) (params : Ptree) :
    (self.read params).1 = 0 ∧
    (self.read params).2.blackLevelR_ < 65536 ∧
    (self.read params).2.blackLevelG_ < 65536 ∧
    (self.read params).2.blackLevelB_ < 65536 ∧
    statusOf (other.read params).2 = statusOf (self.read params).2 ∧
    (∀ key, unconvertibleAt params key = true →
      self.read params = self.read (params.erase key)) ∧
    (unconvertibleAt params "black_level" = true →
      statusOf (self.read params).2
        = ⟨params.get "black_level_r" 4096, params.get "black_level_g" 4096,
           params.get "black_level_b" 4096⟩) ∧
    (unconvertibleAt params "black_level_r" = true →
      (self.read params).2.blackLevelR_ = params.get "black_level" 4096) ∧
    (unconvertibleAt params "black_level_g" = true →
      (self.read params).2.blackLevelG_ = params.get "black_level" 4096) ∧
    (unconvertibleAt params "black_level_b" = true →
      (self.read params).2.blackLevelB_ = params.get "black_level" 4096) := by
  have hbase : params.get "black_level" 4096 < 65536 := Ptree.get_lt _ _ _ (by decide)
  refine ⟨rfl, Ptree.get_lt _ _ _ hbase, Ptree.get_lt _ _ _ hbase, Ptree.get_lt _ _ _ hbase,
    rfl, ?_, ?_, ?_, ?_, ?_⟩
  · intro key h
    exact (read_erase_of_unconvertible self params key h).symm
  · intro h
    rw [statusOf_read, unconvertibleAt_get params "black_level" 4096 h]
  · intro h
    exact unconvertibleAt_get params "black_level_r" _ h
  · intro h
    exact unconvertibleAt_get params "black_level_g" _ h
  · intro h
    exact unconvertibleAt_get params "black_level_b" _ h

/-- C10 at the configuration `{black_level_r: abc, black_level: 100}`. -/
theorem read_total_witness :
    unconvertibleAt configBadRedBase100 "black_level_r" = true ∧
    (sampleInstance.read configBadRedBase100).1 = 0 ∧
    (sampleInstance.read configBadRedBase100).2.blackLevelR_ < 65536 ∧
    sampleInstance.read configBadRedBase100
      = sampleInstance.read (configBadRedBase100.erase "black_level_r") ∧
    (sampleInstance.read configBadRedBase100).2.blackLevelR_
      = configBadRedBase100.get "black_level" 4096 :=
  have h := read_total sampleInstance sampleInstance configBadRedBase100
  ⟨by decide, h.1, h.2.1, h.2.2.2.2.2.1 "black_level_r" (by decide),
    h.2.2.2.2.2.2.2.1 (by decide)⟩

end RPiController
